import Mathlib

/-!
Shallow embedding of the RFM customer-segmentation and cohort-retention
computations of `steam_dashboard.py` (the "RFM Customer Segmentation"
block and the tab-9 "Cohort Retention Analysis" block).

Modelling conventions:

* `purchase_date` is an integer day index: pandas timestamps at day
  resolution compare and subtract exactly like integers, and
  `(a - b).dt.days` is integer subtraction.
* `net_revenue` is an integer amount in minor currency units.  The five
  quintile cut points used by `pd.qcut(col, 5, ...)` sit at fractions
  k/5, k = 0..5, of the sorted data with linear interpolation, so every
  bin edge is an exact rational with denominator 5; we represent an edge
  by its numerator over that fixed denominator (every comparison of a
  data value `v` against an edge is done as `5*v ≤ numerator`), keeping
  all arithmetic exact and executable.
* pandas `to_period('M')` maps a timestamp to its calendar month.  The
  verified claims use only that this bucketing is a monotone function of
  the timestamp, so the calendar is modelled with uniform 31-day months.
* `pd.qcut(col, 5, labels=[...], duplicates='drop')` computes the six
  quantile edges, checks they are monotone, de-duplicates them, and
  raises `ValueError` when the surviving bin count no longer matches the
  5 explicit labels; a raised error is modelled as `none`.
-/

/-- One row of the transaction table (`filtered_df`): the fields the RFM
and cohort blocks read. -/
structure PurchaseRecord where
  customer_id : ℕ
  purchase_date : ℤ
  games_purchased : ℤ
  net_revenue : ℤ
  deriving DecidableEq, Repr, Inhabited

/-- Ascending insertion sort of an integer list. -/
def sortInt (xs : List ℤ) : List ℤ := List.insertionSort (· ≤ ·) xs

/-- Ascending insertion sort of a natural-number list. -/
def sortNat (xs : List ℕ) : List ℕ := List.insertionSort (· ≤ ·) xs

/-- Largest element of an integer list (`Series.max`), `0` on the empty
list (the default never feeds a claim: it is only read on empty data). -/
def listMax (xs : List ℤ) : ℤ := (sortInt xs).getLastD 0

/-- Smallest element of an integer list (`Series.min`, groupby
`transform('min')`), `0` on the empty list. -/
def listMin (xs : List ℤ) : ℤ := (sortInt xs).headD 0

/-- The distinct customer ids in ascending order: `groupby('customer_id')`
sorts its group keys ascending (pandas default `sort=True`). -/
def customers (l : List PurchaseRecord) : List ℕ :=
  sortNat (l.map (fun r => r.customer_id)).dedup

/-- The records of one customer (one groupby group). -/
def recsOf (l : List PurchaseRecord) (c : ℕ) : List PurchaseRecord :=
  l.filter (fun r => r.customer_id == c)

/-- The purchase dates of one customer. -/
def datesOf (l : List PurchaseRecord) (c : ℕ) : List ℤ :=
  (recsOf l c).map (fun r => r.purchase_date)

/-- `agg({'purchase_date': 'max'})` for one customer. -/
def last_purchase (l : List PurchaseRecord) (c : ℕ) : ℤ := listMax (datesOf l c)

/-- `agg({'games_purchased': 'sum'})` for one customer. -/
def frequency (l : List PurchaseRecord) (c : ℕ) : ℤ :=
  ((recsOf l c).map (fun r => r.games_purchased)).sum

/-- `agg({'net_revenue': 'sum'})` for one customer. -/
def monetary (l : List PurchaseRecord) (c : ℕ) : ℤ :=
  ((recsOf l c).map (fun r => r.net_revenue)).sum

/-- `filtered_df['purchase_date'].max()`: the global maximum purchase
date of the whole input. -/
def globalMaxDate (l : List PurchaseRecord) : ℤ :=
  listMax (l.map (fun r => r.purchase_date))

/-- One row of the aggregated `rfm_data` frame after the rename and the
recency column: `customer_id, last_purchase, frequency, monetary,
recency`. -/
structure CustomerAgg where
  customer_id : ℕ
  last_purchase : ℤ
  frequency : ℤ
  monetary : ℤ
  recency : ℤ
  deriving DecidableEq, Repr, Inhabited

/-- The `rfm_data` aggregation: one row per distinct customer id, in
ascending id order, with
`recency = filtered_df['purchase_date'].max() - last_purchase` (in days). -/
def rfm_data (l : List PurchaseRecord) : List CustomerAgg :=
  (customers l).map (fun c =>
    { customer_id := c
      last_purchase := last_purchase l c
      frequency := frequency l c
      monetary := monetary l c
      recency := globalMaxDate l - last_purchase l c })

/-- Numerator (over the fixed denominator 5) of the `k`-th of the six
quantile edges of the sorted data `s`: pandas `Series.quantile` uses
linear interpolation, placing quantile `k/5` at position
`(k/5) * (n-1)` of the sorted values. -/
def quintileEdge (s : List ℤ) (k : ℕ) : ℤ :=
  5 * s.getD (k * (s.length - 1) / 5) 0 +
    ((k * (s.length - 1) % 5 : ℕ) : ℤ) *
      (s.getD (k * (s.length - 1) / 5 + 1) 0 - s.getD (k * (s.length - 1) / 5) 0)

/-- The six quintile-edge numerators of a data column. -/
def qedges (xs : List ℤ) : List ℤ := (List.range 6).map (quintileEdge (sortInt xs))

/-- Bin lookup of `pd.cut` with right-closed bins and `include_lowest`:
walking the edge list, a value (scaled as `w = 5*v`) falls in the first
bin whose right edge is `≥ w`; values above the last edge get the
(unreachable for quantile bins) default `0`. -/
def cutLabel (w : ℤ) : List ℤ → List ℕ → ℕ
  | _ :: e1 :: es, lab :: labs => if w ≤ e1 then lab else cutLabel w (e1 :: es) labs
  | _, _ => 0

/-- Adjacent-pairs monotonicity check on an edge list (pandas
`(np.diff(bins) < 0).any()`). -/
def chainLeB : List ℤ → Bool
  | a :: b :: es => a ≤ b && chainLeB (b :: es)
  | _ => true

/-- Duplicate-freeness check on an edge list: `duplicates='drop'` keeps
all 6 edges exactly when they are pairwise distinct. -/
def nodupB : List ℤ → Bool
  | [] => true
  | a :: es => !(es.contains a) && nodupB es

/-- `pd.qcut(xs, 5, labels, duplicates='drop')`: compute the six edges;
pandas raises `ValueError` when the edges are not monotone ("bins must
increase monotonically") or when, after dropping duplicate edges, the
bin count no longer matches the 5 explicit labels ("Bin labels must be
one fewer than the number of bin edges"); both are modelled as `none`. -/
def qcut5 (labels : List ℕ) (xs : List ℤ) : Option (List ℕ) :=
  if chainLeB (qedges xs) && nodupB (qedges xs) then
    some (xs.map (fun v => cutLabel (5 * v) (qedges xs) labels))
  else none

/-- `Series.rank(method='first')`: the rank of entry `i` is one plus the
number of strictly smaller entries plus the number of equal entries at
earlier positions (ties broken by position). -/
def rankFirst (xs : List ℤ) : List ℤ :=
  (List.range xs.length).map (fun i =>
    ((xs.countP (fun y => decide (y < xs.getD i 0)) +
      (xs.take i).countP (fun y => decide (y = xs.getD i 0)) + 1 : ℕ) : ℤ))

/-- The `get_segment` classification of `steam_dashboard.py`, verbatim
first-match-wins rule chain. -/
def get_segment (r f m : ℕ) : String :=
  if r ≥ 4 ∧ f ≥ 4 ∧ m ≥ 4 then "Champions"
  else if r ≥ 3 ∧ f ≥ 3 ∧ m ≥ 3 then "Loyal Customers"
  else if r ≥ 4 ∧ f ≤ 2 then "At Risk"
  else if r ≤ 2 ∧ f ≥ 3 then "Churned"
  else if r ≥ 3 ∧ f ≤ 2 then "Need Attention"
  else "Potential"

/-- One row of the finished RFM table: aggregates, the three scores and
the segment label. -/
structure CustomerRFM where
  customer_id : ℕ
  last_purchase : ℤ
  frequency : ℤ
  monetary : ℤ
  recency : ℤ
  r_score : ℕ
  f_score : ℕ
  m_score : ℕ
  rfm_segment : String
  deriving DecidableEq, Repr, Inhabited

/-- Assemble one output row from the aggregate row and the three scores. -/
def scoreRow (a : CustomerAgg) (r f m : ℕ) : CustomerRFM :=
  { customer_id := a.customer_id
    last_purchase := a.last_purchase
    frequency := a.frequency
    monetary := a.monetary
    recency := a.recency
    r_score := r
    f_score := f
    m_score := m
    rfm_segment := get_segment r f m }

/-- The complete RFM engine: aggregate per customer, score the three
columns with `pd.qcut` (recency with inverted labels `[5,4,3,2,1]`,
frequency after `rank(method='first')`, monetary directly), then apply
`get_segment` row-wise.  Any `ValueError` raised by a `qcut` call aborts
the block, modelled by `none`. -/
def rfm (l : List PurchaseRecord) : Option (List CustomerRFM) :=
  match qcut5 [5, 4, 3, 2, 1] ((rfm_data l).map (fun a => a.recency)),
      qcut5 [1, 2, 3, 4, 5] (rankFirst ((rfm_data l).map (fun a => a.frequency))),
      qcut5 [1, 2, 3, 4, 5] ((rfm_data l).map (fun a => a.monetary)) with
  | some rs, some fs, some ms =>
    some ((List.range (rfm_data l).length).map (fun i =>
      scoreRow ((rfm_data l).getD i default) (rs.getD i 0) (fs.getD i 0) (ms.getD i 0)))
  | _, _, _ => none

/-- `purchase_date.dt.to_period('M')`: monthly bucketing of a day index.
The claims depend only on this map being monotone; the calendar is
modelled with uniform 31-day months. -/
def monthOf (d : ℤ) : ℤ := d / 31

/-- A customer's cohort: the month of their earliest purchase date in
the input (`groupby('customer_id')['purchase_date'].transform('min')`
followed by `to_period('M')`). -/
def cohortMonth (l : List PurchaseRecord) (c : ℕ) : ℤ :=
  monthOf (listMin (datesOf l c))

/-- `cohorts = cohort_data.groupby('cohort')['customer_id'].nunique()`:
the number of distinct customers whose cohort is month `m`. -/
def cohorts (l : List PurchaseRecord) (m : ℤ) : ℕ :=
  ((customers l).filter (fun c => cohortMonth l c == m)).length

/-- Cell `(c, p)` of the retained-count matrix
`cohort_data.groupby(['cohort','period'])['customer_id'].nunique()`
(`unstack(fill_value=0)` makes absent cells 0, as does this function):
the number of distinct customers of cohort `c` having at least one
record in period month `p`. -/
def cohort_retention (l : List PurchaseRecord) (c p : ℤ) : ℕ :=
  ((customers l).filter (fun cu =>
    cohortMonth l cu == c &&
      l.any (fun r => r.customer_id == cu && monthOf r.purchase_date == p))).length

/-- Ten records of a single customer, all with the same `net_revenue`:
fewer than 2 distinct values on every dimension. -/
def exEqualMonetary : List PurchaseRecord :=
  (List.range 10).map (fun i => { customer_id := 7, purchase_date := (i : ℤ), games_purchased := 1, net_revenue := 5 })

/-- Three customers with 2 distinct recency values, 3 distinct frequencies
and 3 distinct monetary totals; the recency quintile edges still collapse. -/
def exTwoDistinct : List PurchaseRecord :=
  [{ customer_id := 1, purchase_date := 0, games_purchased := 1, net_revenue := 10 },
   { customer_id := 2, purchase_date := 0, games_purchased := 2, net_revenue := 20 },
   { customer_id := 3, purchase_date := 1, games_purchased := 3, net_revenue := 30 }]

/-- Five customers with well-spread columns (every quintile edge distinct),
one of them with a negative `net_revenue`. -/
def exNegRevenue : List PurchaseRecord :=
  [{ customer_id := 1, purchase_date := 100, games_purchased := 1, net_revenue := -5 },
   { customer_id := 2, purchase_date := 101, games_purchased := 2, net_revenue := 10 },
   { customer_id := 3, purchase_date := 102, games_purchased := 3, net_revenue := 20 },
   { customer_id := 4, purchase_date := 103, games_purchased := 4, net_revenue := 30 },
   { customer_id := 5, purchase_date := 104, games_purchased := 5, net_revenue := 40 }]

/-- Two customers with equal `games_purchased` totals (an f-score tie). -/
def exTiedFreq : List PurchaseRecord :=
  [{ customer_id := 1, purchase_date := 0, games_purchased := 3, net_revenue := 10 },
   { customer_id := 2, purchase_date := 1, games_purchased := 3, net_revenue := 20 }]


/-! ### Generic helper lemmas -/

lemma sortInt_perm (xs : List ℤ) : List.Perm (sortInt xs) xs := List.perm_insertionSort _ xs

lemma sortInt_sorted (xs : List ℤ) : (sortInt xs).Sorted (· ≤ ·) :=
  List.sorted_insertionSort _ xs

lemma sortInt_eq_of_perm {xs ys : List ℤ} (h : List.Perm xs ys) : sortInt xs = sortInt ys :=
  List.eq_of_perm_of_sorted ((sortInt_perm xs).trans (h.trans (sortInt_perm ys).symm))
    (sortInt_sorted xs) (sortInt_sorted ys)

lemma sortNat_perm (xs : List ℕ) : List.Perm (sortNat xs) xs := List.perm_insertionSort _ xs

lemma sortNat_sorted (xs : List ℕ) : (sortNat xs).Sorted (· ≤ ·) :=
  List.sorted_insertionSort _ xs

lemma sortNat_eq_of_perm {xs ys : List ℕ} (h : List.Perm xs ys) : sortNat xs = sortNat ys :=
  List.eq_of_perm_of_sorted ((sortNat_perm xs).trans (h.trans (sortNat_perm ys).symm))
    (sortNat_sorted xs) (sortNat_sorted ys)

lemma getLastD_mem {α : Type} : ∀ (l : List α) (d : α), l ≠ [] → l.getLastD d ∈ l
  | [], _, h => absurd rfl h
  | [b], _, _ => by simp
  | b :: x :: xs, d, _ => by
    rw [List.getLastD_cons]
    exact List.mem_cons_of_mem b (getLastD_mem (x :: xs) b (by simp))

lemma le_getLastD : ∀ (l : List ℤ), l.Sorted (· ≤ ·) → ∀ a : ℤ, a ∈ l → ∀ d, a ≤ l.getLastD d := by
  intro l
  induction l with
  | nil => intro _ a ha; cases ha
  | cons b t ih =>
    intro hs a ha d
    rw [List.getLastD_cons]
    have hbt := List.sorted_cons.mp hs
    rcases List.mem_cons.mp ha with rfl | hat
    · cases t with
      | nil => simp
      | cons x xs => exact hbt.1 _ (getLastD_mem (x :: xs) a (by simp))
    · exact ih hbt.2 a hat b

lemma headD_le {l : List ℤ} (hs : l.Sorted (· ≤ ·)) {a : ℤ} (ha : a ∈ l) (d : ℤ) :
    l.headD d ≤ a := by
  cases l with
  | nil => cases ha
  | cons b t =>
    rcases List.mem_cons.mp ha with rfl | hat
    · simp
    · simpa using (List.sorted_cons.mp hs).1 _ hat

lemma headD_mem {α : Type} (l : List α) (d : α) (h : l ≠ []) : l.headD d ∈ l := by
  cases l with
  | nil => exact absurd rfl h
  | cons b t => simp

lemma sortInt_ne_nil {xs : List ℤ} (h : xs ≠ []) : sortInt xs ≠ [] := by
  intro hnil
  exact h ((hnil ▸ sortInt_perm xs).symm.eq_nil)

/-! ### `listMax` / `listMin` -/

lemma listMax_mem {xs : List ℤ} (h : xs ≠ []) : listMax xs ∈ xs :=
  (sortInt_perm xs).mem_iff.mp (getLastD_mem _ _ (sortInt_ne_nil h))

lemma le_listMax {xs : List ℤ} {a : ℤ} (h : a ∈ xs) : a ≤ listMax xs :=
  le_getLastD _ (sortInt_sorted xs) a ((sortInt_perm xs).mem_iff.mpr h) 0

lemma listMax_eq_of_perm {xs ys : List ℤ} (h : List.Perm xs ys) : listMax xs = listMax ys := by
  unfold listMax
  rw [sortInt_eq_of_perm h]

lemma listMin_mem {xs : List ℤ} (h : xs ≠ []) : listMin xs ∈ xs :=
  (sortInt_perm xs).mem_iff.mp (headD_mem _ _ (sortInt_ne_nil h))

lemma listMin_le {xs : List ℤ} {a : ℤ} (h : a ∈ xs) : listMin xs ≤ a :=
  headD_le (sortInt_sorted xs) ((sortInt_perm xs).mem_iff.mpr h) 0

lemma listMin_eq_of_perm {xs ys : List ℤ} (h : List.Perm xs ys) : listMin xs = listMin ys := by
  unfold listMin
  rw [sortInt_eq_of_perm h]

/-! ### `customers` -/

lemma customers_sorted (l : List PurchaseRecord) : (customers l).Sorted (· ≤ ·) :=
  sortNat_sorted _

lemma customers_nodup (l : List PurchaseRecord) : (customers l).Nodup :=
  (sortNat_perm _).symm.nodup (List.nodup_dedup _)

lemma mem_customers {l : List PurchaseRecord} {c : ℕ} :
    c ∈ customers l ↔ ∃ r ∈ l, r.customer_id = c := by
  unfold customers
  rw [(sortNat_perm _).mem_iff, List.mem_dedup, List.mem_map]

lemma customers_eq_of_perm {l l' : List PurchaseRecord} (h : List.Perm l l') :
    customers l = customers l' :=
  sortNat_eq_of_perm ((h.map _).dedup)

/-! ### Permutation invariance (grouping is commutative) -/

lemma recsOf_perm {l l' : List PurchaseRecord} (h : List.Perm l l') (c : ℕ) :
    List.Perm (recsOf l c) (recsOf l' c) := h.filter _

lemma datesOf_perm {l l' : List PurchaseRecord} (h : List.Perm l l') (c : ℕ) :
    List.Perm (datesOf l c) (datesOf l' c) := (recsOf_perm h c).map _

lemma last_purchase_eq_of_perm {l l' : List PurchaseRecord} (h : List.Perm l l') (c : ℕ) :
    last_purchase l c = last_purchase l' c :=
  listMax_eq_of_perm (datesOf_perm h c)

lemma frequency_eq_of_perm {l l' : List PurchaseRecord} (h : List.Perm l l') (c : ℕ) :
    frequency l c = frequency l' c :=
  ((recsOf_perm h c).map _).sum_eq

lemma monetary_eq_of_perm {l l' : List PurchaseRecord} (h : List.Perm l l') (c : ℕ) :
    monetary l c = monetary l' c :=
  ((recsOf_perm h c).map _).sum_eq

lemma globalMaxDate_eq_of_perm {l l' : List PurchaseRecord} (h : List.Perm l l') :
    globalMaxDate l = globalMaxDate l' :=
  listMax_eq_of_perm (h.map _)

lemma rfm_data_eq_of_perm {l l' : List PurchaseRecord} (h : List.Perm l l') :
    rfm_data l = rfm_data l' := by
  unfold rfm_data
  rw [customers_eq_of_perm h]
  exact List.map_congr_left (fun c _ => by
    rw [last_purchase_eq_of_perm h, frequency_eq_of_perm h, monetary_eq_of_perm h,
      globalMaxDate_eq_of_perm h])

lemma rfm_eq_of_perm {l l' : List PurchaseRecord} (h : List.Perm l l') :
    rfm l = rfm l' := by
  unfold rfm
  rw [rfm_data_eq_of_perm h]

lemma any_eq_of_perm {l l' : List PurchaseRecord} (h : List.Perm l l')
    (p : PurchaseRecord → Bool) : l.any p = l'.any p := by
  have hiff : (l.any p = true) ↔ (l'.any p = true) := by
    simp only [List.any_eq_true]
    exact ⟨fun ⟨x, hx, hp⟩ => ⟨x, h.mem_iff.mp hx, hp⟩,
      fun ⟨x, hx, hp⟩ => ⟨x, h.mem_iff.mpr hx, hp⟩⟩
  cases ha : l.any p <;> cases hb : l'.any p <;> simp_all

lemma cohortMonth_eq_of_perm {l l' : List PurchaseRecord} (h : List.Perm l l') (c : ℕ) :
    cohortMonth l c = cohortMonth l' c := by
  unfold cohortMonth
  rw [listMin_eq_of_perm (datesOf_perm h c)]

lemma cohorts_eq_of_perm {l l' : List PurchaseRecord} (h : List.Perm l l') (m : ℤ) :
    cohorts l m = cohorts l' m := by
  unfold cohorts
  rw [customers_eq_of_perm h]
  congr 1
  exact List.filter_congr (fun c _ => by rw [cohortMonth_eq_of_perm h])

lemma cohort_retention_eq_of_perm {l l' : List PurchaseRecord} (h : List.Perm l l')
    (c p : ℤ) : cohort_retention l c p = cohort_retention l' c p := by
  unfold cohort_retention
  rw [customers_eq_of_perm h]
  congr 1
  exact List.filter_congr (fun cu _ => by
    rw [cohortMonth_eq_of_perm h, any_eq_of_perm h])

/-! ### `qcut5` and `cutLabel` -/

lemma getLastD_irrel {α : Type} : ∀ (l : List α) (d d' : α), l ≠ [] → l.getLastD d = l.getLastD d'
  | [], _, _, h => absurd rfl h
  | [_], _, _, _ => rfl
  | _ :: x :: xs, _, _, _ => by
    simp only [List.getLastD_cons]

lemma getD_length_sub_one : ∀ (l : List ℤ), l ≠ [] → l.getD (l.length - 1) 0 = l.getLastD 0
  | [], h => absurd rfl h
  | [b], _ => rfl
  | b :: x :: xs, _ => by
    have ih := getD_length_sub_one (x :: xs) (by simp)
    simp only [List.length_cons, List.getLastD_cons]
    have hlen : xs.length + 1 + 1 - 1 = xs.length + 1 := rfl
    rw [hlen]
    have hstep : (b :: x :: xs).getD (xs.length + 1) 0 = (x :: xs).getD xs.length 0 := rfl
    rw [hstep]
    have h2 : (x :: xs).length - 1 = xs.length := rfl
    rw [h2] at ih
    rw [ih]
    rw [List.getLastD_cons]

lemma quintileEdge_last {xs : List ℤ} (h : xs ≠ []) :
    quintileEdge (sortInt xs) 5 = 5 * listMax xs := by
  unfold quintileEdge
  have h5 : 5 * ((sortInt xs).length - 1) / 5 = (sortInt xs).length - 1 :=
    Nat.mul_div_cancel_left _ (by norm_num)
  have h0 : 5 * ((sortInt xs).length - 1) % 5 = 0 := Nat.mul_mod_right 5 _
  rw [h5, h0]
  rw [getD_length_sub_one _ (sortInt_ne_nil h)]
  unfold listMax
  push_cast
  ring

lemma qedges_getLast? (xs : List ℤ) :
    (qedges xs).getLast? = some (quintileEdge (sortInt xs) 5) := rfl

lemma qedges_length (xs : List ℤ) : (qedges xs).length = 6 := rfl

lemma cutLabel_mem : ∀ (labs : List ℕ) (es : List ℤ) (w elast : ℤ),
    es.length = labs.length + 1 → labs ≠ [] → es.getLast? = some elast → w ≤ elast →
    cutLabel w es labs ∈ labs
  | [], _, _, _, _, hne, _, _ => absurd rfl hne
  | lab :: labs, es, w, elast, hlen, _, hlast, hle => by
    cases es with
    | nil => simp at hlen
    | cons e0 es1 =>
      cases es1 with
      | nil => simp at hlen
      | cons e1 es' =>
        simp only [cutLabel]
        by_cases hc : w ≤ e1
        · simp [hc]
        · rw [if_neg hc]
          have hlne : labs ≠ [] := by
            intro hnil
            subst hnil
            have hes : es' = [] := by simpa using hlen
            subst hes
            have helast : elast = e1 := by
              simp [List.getLast?] at hlast
              omega
            exact hc (helast ▸ hle)
          have hlen2 : (e1 :: es').length = labs.length + 1 := by
            simp at hlen ⊢
            omega
          have hlast2 : (e1 :: es').getLast? = some elast := by
            rw [← hlast]
            exact List.getLast?_cons_cons.symm
          exact List.mem_cons_of_mem _
            (cutLabel_mem labs (e1 :: es') w elast hlen2 hlne hlast2 hle)

lemma cutLabel_le : ∀ (labs : List ℕ) (es : List ℤ) (w w' elast : ℤ),
    es.length = labs.length + 1 → labs ≠ [] → labs.Pairwise (· ≤ ·) →
    es.getLast? = some elast → w ≤ w' → w' ≤ elast →
    cutLabel w es labs ≤ cutLabel w' es labs
  | [], _, _, _, _, _, hne, _, _, _, _ => absurd rfl hne
  | lab :: labs, es, w, w', elast, hlen, _, hpw, hlast, hww, hle => by
    cases es with
    | nil => simp at hlen
    | cons e0 es1 =>
      cases es1 with
      | nil => simp at hlen
      | cons e1 es' =>
        simp only [cutLabel]
        by_cases hc' : w' ≤ e1
        · rw [if_pos hc', if_pos (le_trans hww hc')]
        · rw [if_neg hc']
          have hlne : labs ≠ [] := by
            intro hnil
            subst hnil
            have hes : es' = [] := by simpa using hlen
            subst hes
            have helast : elast = e1 := by
              simp [List.getLast?] at hlast
              omega
            exact hc' (helast ▸ hle)
          have hlen2 : (e1 :: es').length = labs.length + 1 := by
            simp at hlen ⊢
            omega
          have hlast2 : (e1 :: es').getLast? = some elast := by
            rw [← hlast]
            exact List.getLast?_cons_cons.symm
          by_cases hc : w ≤ e1
          · rw [if_pos hc]
            have hmem := cutLabel_mem labs (e1 :: es') w' elast hlen2 hlne hlast2 hle
            exact (List.pairwise_cons.mp hpw).1 _ hmem
          · rw [if_neg hc]
            exact cutLabel_le labs (e1 :: es') w w' elast hlen2 hlne
              (List.pairwise_cons.mp hpw).2 hlast2 hww hle

lemma qcut5_eq_some {L : List ℕ} {xs : List ℤ} {ys : List ℕ} (h : qcut5 L xs = some ys) :
    ys = xs.map (fun v => cutLabel (5 * v) (qedges xs) L) := by
  unfold qcut5 at h
  split at h
  · exact (Option.some_inj.mp h).symm
  · cases h

lemma qcut5_ne_nil {L : List ℕ} {xs : List ℤ} {ys : List ℕ} (h : qcut5 L xs = some ys) :
    xs ≠ [] := by
  intro hnil
  subst hnil
  have hq : qcut5 L [] = none := rfl
  rw [hq] at h
  cases h

lemma qcut5_length {L : List ℕ} {xs : List ℤ} {ys : List ℕ} (h : qcut5 L xs = some ys) :
    ys.length = xs.length := by
  rw [qcut5_eq_some h, List.length_map]

lemma qcut5_mem_labels {L : List ℕ} {xs : List ℤ} {ys : List ℕ}
    (hL : L.length = 5) (h : qcut5 L xs = some ys) {y : ℕ} (hy : y ∈ ys) : y ∈ L := by
  have hxs := qcut5_ne_nil h
  have hys := qcut5_eq_some h
  subst hys
  obtain ⟨v, hv, rfl⟩ := List.mem_map.mp hy
  have hLne : L ≠ [] := by
    intro hnil
    rw [hnil] at hL
    simp at hL
  refine cutLabel_mem L (qedges xs) (5 * v) (5 * listMax xs) ?_ hLne ?_ ?_
  · rw [qedges_length, hL]
  · rw [qedges_getLast?, quintileEdge_last hxs]
  · have := le_listMax hv
    omega

/-! ### `rankFirst` -/

lemma rankFirst_length (xs : List ℤ) : (rankFirst xs).length = xs.length := by
  simp [rankFirst]

lemma rankFirst_getD {xs : List ℤ} {i : ℕ} (hi : i < xs.length) :
    (rankFirst xs).getD i 0 =
      ((xs.countP (fun y => decide (y < xs.getD i 0)) +
        (xs.take i).countP (fun y => decide (y = xs.getD i 0)) + 1 : ℕ) : ℤ) := by
  unfold rankFirst
  rw [List.getD_eq_getElem?_getD, List.getElem?_map, List.getElem?_range hi]
  simp

lemma countP_take_lt {xs : List ℤ} {i j : ℕ} (hij : i < j) (hj : j ≤ xs.length)
    {p : ℤ → Bool} (hp : p (xs.getD i 0) = true) :
    (xs.take i).countP p < (xs.take j).countP p := by
  have hi : i < xs.length := lt_of_lt_of_le hij hj
  have hgetD : xs.getD i 0 = xs[i] := List.getD_eq_getElem xs 0 hi
  have hsucc : (xs.take (i + 1)).countP p = (xs.take i).countP p + 1 := by
    rw [List.take_succ, List.countP_append, List.getElem?_eq_getElem hi]
    rw [hgetD] at hp
    simp [List.countP_cons, hp]
  have hmono : (xs.take (i + 1)).countP p ≤ (xs.take j).countP p := by
    have hmin : xs.take (i + 1) = (xs.take j).take (i + 1) := by
      rw [List.take_take]
      congr 1
      omega
    rw [hmin]
    exact List.Sublist.countP_le p (List.take_sublist _ _)
  omega

lemma rankFirst_lt {xs : List ℤ} {i j : ℕ} (hij : i < j) (hj : j < xs.length)
    (heq : xs.getD i 0 = xs.getD j 0) :
    (rankFirst xs).getD i 0 < (rankFirst xs).getD j 0 := by
  have hi : i < xs.length := lt_trans hij hj
  rw [rankFirst_getD hi, rankFirst_getD hj, heq]
  have hcount := countP_take_lt hij (le_of_lt hj)
    (p := fun y => decide (y = xs.getD j 0)) (by rw [heq]; simp)
  push_cast
  omega

/-! ### `rfm` destructuring -/

lemma rfm_eq_some {l : List PurchaseRecord} {rows : List CustomerRFM} (h : rfm l = some rows) :
    ∃ rs fs ms,
      qcut5 [5, 4, 3, 2, 1] ((rfm_data l).map (fun a => a.recency)) = some rs ∧
      qcut5 [1, 2, 3, 4, 5] (rankFirst ((rfm_data l).map (fun a => a.frequency))) = some fs ∧
      qcut5 [1, 2, 3, 4, 5] ((rfm_data l).map (fun a => a.monetary)) = some ms ∧
      rows = (List.range (rfm_data l).length).map (fun i =>
        scoreRow ((rfm_data l).getD i default) (rs.getD i 0) (fs.getD i 0) (ms.getD i 0)) := by
  unfold rfm at h
  split at h
  · rename_i rs fs ms h1 h2 h3
    exact ⟨rs, fs, ms, h1, h2, h3, (Option.some_inj.mp h).symm⟩
  · cases h

lemma rfm_none_iff (l : List PurchaseRecord) :
    rfm l = none ↔
      (qcut5 [5, 4, 3, 2, 1] ((rfm_data l).map (fun a => a.recency)) = none ∨
       qcut5 [1, 2, 3, 4, 5] (rankFirst ((rfm_data l).map (fun a => a.frequency))) = none ∨
       qcut5 [1, 2, 3, 4, 5] ((rfm_data l).map (fun a => a.monetary)) = none) := by
  unfold rfm
  rcases h1 : qcut5 [5, 4, 3, 2, 1] ((rfm_data l).map (fun a => a.recency)) with _ | rs
  · rw [h1]
    simp
  rcases h2 : qcut5 [1, 2, 3, 4, 5] (rankFirst ((rfm_data l).map (fun a => a.frequency))) with _ | fs
  · rw [h1, h2]
    simp
  rcases h3 : qcut5 [1, 2, 3, 4, 5] ((rfm_data l).map (fun a => a.monetary)) with _ | ms
  · rw [h1, h2, h3]
    simp
  · rw [h1, h2, h3]
    simp

/-! ### Cohort helper lemmas -/

lemma mem_datesOf {l : List PurchaseRecord} {cu : ℕ} {d : ℤ} :
    d ∈ datesOf l cu ↔ ∃ r ∈ l, r.customer_id = cu ∧ r.purchase_date = d := by
  unfold datesOf recsOf
  simp only [List.mem_map, List.mem_filter, beq_iff_eq]
  constructor
  · rintro ⟨r, ⟨hrl, hrc⟩, hrd⟩
    exact ⟨r, hrl, hrc, hrd⟩
  · rintro ⟨r, hrl, hrc, hrd⟩
    exact ⟨r, ⟨hrl, hrc⟩, hrd⟩

lemma datesOf_ne_nil {l : List PurchaseRecord} {cu : ℕ} (h : cu ∈ customers l) :
    datesOf l cu ≠ [] := by
  obtain ⟨r, hrl, hrc⟩ := mem_customers.mp h
  intro hnil
  have : r.purchase_date ∈ datesOf l cu := mem_datesOf.mpr ⟨r, hrl, hrc, rfl⟩
  rw [hnil] at this
  cases this

lemma monthOf_mono {a b : ℤ} (h : a ≤ b) : monthOf a ≤ monthOf b := by
  unfold monthOf
  omega

/-- C4: for every input and every cohort month `c`, the diagonal cell of the
retained-count matrix equals the cohort size: every customer has a record
(their first purchase) in their own cohort month, so
`retained_count[c][c] = cohort_size[c]`.  Proved for all `c`, which covers in
particular every cohort present in the matrix. -/
theorem claim_C4_diagonal_equals_cohort_size (l : List PurchaseRecord) (c : ℤ) :
    cohort_retention l c c = cohorts l c := by
  unfold cohort_retention cohorts
  congr 1
  apply List.filter_congr
  intro cu hcu
  by_cases hc : cohortMonth l cu = c
  · have hb : (cohortMonth l cu == c) = true := by simp [hc]
    rw [hb, Bool.true_and]
    rw [List.any_eq_true]
    have hdne := datesOf_ne_nil hcu
    obtain ⟨r1, hr1l, hr1id, hr1d⟩ := mem_datesOf.mp (listMin_mem hdne)
    refine ⟨r1, hr1l, ?_⟩
    rw [Bool.and_eq_true, beq_iff_eq, beq_iff_eq]
    refine ⟨hr1id, ?_⟩
    rw [hr1d]
    rw [← hc]
    rfl
  · have hb : (cohortMonth l cu == c) = false := by simp [hc]
    rw [hb]
    simp

/-- C5: no customer is counted in a period month strictly before their cohort
month: for `p < c` the cell `retained_count[c][p]` is `0`, because the cohort
month is the month of the customer's earliest record and monthly bucketing is
monotone in time. -/
theorem claim_C5_no_activity_before_cohort (l : List PurchaseRecord) (c p : ℤ)
    (h : p < c) : cohort_retention l c p = 0 := by
  unfold cohort_retention
  rw [List.length_eq_zero]
  rw [List.filter_eq_nil_iff]
  intro cu hcu
  intro hpred
  rw [Bool.and_eq_true] at hpred
  obtain ⟨hcm, hany⟩ := hpred
  have hcm' : cohortMonth l cu = c := by simpa using hcm
  rw [List.any_eq_true] at hany
  obtain ⟨r, hrl, hr⟩ := hany
  rw [Bool.and_eq_true, beq_iff_eq, beq_iff_eq] at hr
  have hdmem : r.purchase_date ∈ datesOf l cu := mem_datesOf.mpr ⟨r, hrl, hr.1, rfl⟩
  have hmono := monthOf_mono (listMin_le hdmem)
  unfold cohortMonth at hcm'
  omega

/-- Witness for C5 at a concrete input: the two-customer example, cohort
month 1 (dates around day 31), period month 0. -/
theorem claim_C5_witness : (0 : ℤ) < 1 ∧ cohort_retention exTiedFreq 1 0 = 0 :=
  ⟨by decide, claim_C5_no_activity_before_cohort exTiedFreq 1 0 (by decide)⟩

/-- C9 (counterexample): on zero records the RFM engine does not return an
empty output: the very first `pd.qcut` call raises (the quantile edges of an
empty column are all `NaN`, which `duplicates='drop'` collapses to a single
edge, mismatching the 5 labels), modelled as `none`. -/
theorem claim_C9_counterexample : rfm ([] : List PurchaseRecord) = none := rfl

/-- C9 (amended): on zero records the cohort engine returns an empty matrix
(every cell of `retained_count` is `0`, every cohort size is `0`, there are
no customers) and the RFM engine raises instead of returning an empty
mapping. -/
theorem claim_C9_empty_input (c p m : ℤ) :
    cohort_retention [] c p = 0 ∧ cohorts [] m = 0 ∧ customers [] = [] ∧
      rfm_data [] = [] ∧ rfm ([] : List PurchaseRecord) = none :=
  ⟨rfl, rfl, rfl, rfl, rfl⟩

/-- C3 (code evaluation): a single customer with 10 records and all
`net_revenue` equal has fewer than 2 distinct monetary values; `pd.qcut` on
the monetary column raises (no neutral fallback exists), and the whole RFM
block aborts. -/
theorem claim_C3_degenerate_binning_raises :
    ((rfm_data exEqualMonetary).map (fun a => a.monetary)).dedup.length < 2 ∧
    qcut5 [1, 2, 3, 4, 5] ((rfm_data exEqualMonetary).map (fun a => a.monetary)) = none ∧
    rfm exEqualMonetary = none := by decide

/-- C1: the segment label is assigned by the ordered first-match-wins rules
of `get_segment` (Champions, Loyal Customers, At Risk, Churned, Need
Attention, Potential), and in particular `(r,f,m) = (4,1,1)` falls through
the first two rules to "At Risk". -/
theorem claim_C1_segment_rule_precedence :
    ∀ r f m : ℕ,
      ((r ≥ 4 ∧ f ≥ 4 ∧ m ≥ 4) → get_segment r f m = "Champions") ∧
      (¬(r ≥ 4 ∧ f ≥ 4 ∧ m ≥ 4) → (r ≥ 3 ∧ f ≥ 3 ∧ m ≥ 3) →
        get_segment r f m = "Loyal Customers") ∧
      (¬(r ≥ 4 ∧ f ≥ 4 ∧ m ≥ 4) → ¬(r ≥ 3 ∧ f ≥ 3 ∧ m ≥ 3) → (r ≥ 4 ∧ f ≤ 2) →
        get_segment r f m = "At Risk") ∧
      (¬(r ≥ 4 ∧ f ≥ 4 ∧ m ≥ 4) → ¬(r ≥ 3 ∧ f ≥ 3 ∧ m ≥ 3) → ¬(r ≥ 4 ∧ f ≤ 2) →
        (r ≤ 2 ∧ f ≥ 3) → get_segment r f m = "Churned") ∧
      (¬(r ≥ 4 ∧ f ≥ 4 ∧ m ≥ 4) → ¬(r ≥ 3 ∧ f ≥ 3 ∧ m ≥ 3) → ¬(r ≥ 4 ∧ f ≤ 2) →
        ¬(r ≤ 2 ∧ f ≥ 3) → (r ≥ 3 ∧ f ≤ 2) → get_segment r f m = "Need Attention") ∧
      (¬(r ≥ 4 ∧ f ≥ 4 ∧ m ≥ 4) → ¬(r ≥ 3 ∧ f ≥ 3 ∧ m ≥ 3) → ¬(r ≥ 4 ∧ f ≤ 2) →
        ¬(r ≤ 2 ∧ f ≥ 3) → ¬(r ≥ 3 ∧ f ≤ 2) → get_segment r f m = "Potential") ∧
      (get_segment 4 1 1 = "At Risk") ∧
      (get_segment 4 1 1 ≠ "Champions") ∧
      (get_segment 4 1 1 ≠ "Loyal Customers") := by
  intro r f m
  refine ⟨?_, ?_, ?_, ?_, ?_, ?_, by decide, by decide, by decide⟩ <;>
    · intros
      unfold get_segment
      split_ifs <;> first | rfl | tauto

/-- Witness for C1: the theorem applied at concrete score triples. -/
theorem claim_C1_witness :
    get_segment 5 5 5 = "Champions" ∧ get_segment 4 1 1 = "At Risk" :=
  ⟨(claim_C1_segment_rule_precedence 5 5 5).1 (by decide),
   (claim_C1_segment_rule_precedence 4 1 1).2.2.1 (by decide) (by decide) (by decide)⟩

lemma rfm_data_map_cid (l : List PurchaseRecord) :
    (rfm_data l).map (fun a => a.customer_id) = customers l := by
  unfold rfm_data
  rw [List.map_map]
  exact List.map_id _

/-- C2: for a non-empty input, the aggregation `rfm_data` has exactly one row
per distinct `customer_id` of the input (no duplicates, and a row for `c`
exists exactly when some record has `customer_id = c`), and each row carries
`recency = (global max purchase_date) - (this customer's max purchase_date)`,
`frequency = sum of games_purchased`, `monetary = sum of net_revenue` over
that customer's records. -/
theorem claim_C2_rfm_aggregation (l : List PurchaseRecord) (hne : l ≠ []) :
    ((rfm_data l).map (fun a => a.customer_id)).Nodup ∧
    (∀ c : ℕ, c ∈ (rfm_data l).map (fun a => a.customer_id) ↔
      ∃ r ∈ l, r.customer_id = c) ∧
    ∀ a ∈ rfm_data l,
      a.recency = listMax (l.map (fun r => r.purchase_date)) -
        listMax ((l.filter (fun r => r.customer_id == a.customer_id)).map
          (fun r => r.purchase_date)) ∧
      a.frequency = ((l.filter (fun r => r.customer_id == a.customer_id)).map
        (fun r => r.games_purchased)).sum ∧
      a.monetary = ((l.filter (fun r => r.customer_id == a.customer_id)).map
        (fun r => r.net_revenue)).sum := by
  refine ⟨?_, ?_, ?_⟩
  · rw [rfm_data_map_cid]
    exact customers_nodup l
  · intro c
    rw [rfm_data_map_cid]
    exact mem_customers
  · intro a ha
    unfold rfm_data at ha
    obtain ⟨c, _, rfl⟩ := List.mem_map.mp ha
    exact ⟨rfl, rfl, rfl⟩

/-- Witness for C2: the theorem applied to the concrete two-customer input. -/
theorem claim_C2_witness :
    exTiedFreq ≠ [] ∧
      (((rfm_data exTiedFreq).map (fun a => a.customer_id)).Nodup ∧
      (∀ c : ℕ, c ∈ (rfm_data exTiedFreq).map (fun a => a.customer_id) ↔
        ∃ r ∈ exTiedFreq, r.customer_id = c) ∧
      ∀ a ∈ rfm_data exTiedFreq,
        a.recency = listMax (exTiedFreq.map (fun r => r.purchase_date)) -
          listMax ((exTiedFreq.filter (fun r => r.customer_id == a.customer_id)).map
            (fun r => r.purchase_date)) ∧
        a.frequency = ((exTiedFreq.filter (fun r => r.customer_id == a.customer_id)).map
          (fun r => r.games_purchased)).sum ∧
        a.monetary = ((exTiedFreq.filter (fun r => r.customer_id == a.customer_id)).map
          (fun r => r.net_revenue)).sum) :=
  ⟨by decide, claim_C2_rfm_aggregation exTiedFreq (by decide)⟩

/-- C6 (counterexample): an input whose customer set has at least 2 distinct
values on each of the three dimensions on which the scoring step nevertheless
fails: recencies `(1,1,0)` give quintile edges `0, 0.4, 0.8, 1, 1, 1`, whose
duplicates are dropped, leaving 3 bins against 5 labels, so `pd.qcut` raises
and no scores are produced. -/
theorem claim_C6_counterexample :
    2 ≤ ((rfm_data exTwoDistinct).map (fun a => a.recency)).dedup.length ∧
    2 ≤ ((rfm_data exTwoDistinct).map (fun a => a.frequency)).dedup.length ∧
    2 ≤ ((rfm_data exTwoDistinct).map (fun a => a.monetary)).dedup.length ∧
    rfm exTwoDistinct = none := by decide

/-- C6 (amended): whenever the scoring step succeeds (which having at least 2
distinct values per dimension does not guarantee: it needs all six quintile
edges of each column to stay pairwise distinct), every customer's three
scores are integers in `[1,5]`. -/
theorem claim_C6_scores_in_range {l : List PurchaseRecord} {rows : List CustomerRFM}
    (h : rfm l = some rows) :
    ∀ row ∈ rows,
      1 ≤ row.r_score ∧ row.r_score ≤ 5 ∧ 1 ≤ row.f_score ∧ row.f_score ≤ 5 ∧
        1 ≤ row.m_score ∧ row.m_score ≤ 5 := by
  obtain ⟨rs, fs, ms, h1, h2, h3, hrows⟩ := rfm_eq_some h
  subst hrows
  intro row hrow
  obtain ⟨i, hi, rfl⟩ := List.mem_map.mp hrow
  rw [List.mem_range] at hi
  have hrs_len : rs.length = (rfm_data l).length := by
    rw [qcut5_length h1, List.length_map]
  have hfs_len : fs.length = (rfm_data l).length := by
    rw [qcut5_length h2, rankFirst_length, List.length_map]
  have hms_len : ms.length = (rfm_data l).length := by
    rw [qcut5_length h3, List.length_map]
  have hirs : i < rs.length := by omega
  have hifs : i < fs.length := by omega
  have hims : i < ms.length := by omega
  have hr := qcut5_mem_labels (by decide) h1 (y := rs.getD i 0)
    (by rw [List.getD_eq_getElem rs 0 hirs]; exact List.getElem_mem _)
  have hf := qcut5_mem_labels (by decide) h2 (y := fs.getD i 0)
    (by rw [List.getD_eq_getElem fs 0 hifs]; exact List.getElem_mem _)
  have hm := qcut5_mem_labels (by decide) h3 (y := ms.getD i 0)
    (by rw [List.getD_eq_getElem ms 0 hims]; exact List.getElem_mem _)
  have hrB : 1 ≤ rs.getD i 0 ∧ rs.getD i 0 ≤ 5 := by
    simp only [List.mem_cons, List.not_mem_nil, or_false] at hr
    rcases hr with h' | h' | h' | h' | h' <;> omega
  have hfB : 1 ≤ fs.getD i 0 ∧ fs.getD i 0 ≤ 5 := by
    simp only [List.mem_cons, List.not_mem_nil, or_false] at hf
    rcases hf with h' | h' | h' | h' | h' <;> omega
  have hmB : 1 ≤ ms.getD i 0 ∧ ms.getD i 0 ≤ 5 := by
    simp only [List.mem_cons, List.not_mem_nil, or_false] at hm
    rcases hm with h' | h' | h' | h' | h' <;> omega
  simp only [scoreRow]
  exact ⟨hrB.1, hrB.2, hfB.1, hfB.2, hmB.1, hmB.2⟩

/-- Witness for C6 (amended): the theorem applied to the five-customer input
on which the scoring succeeds. -/
theorem claim_C6_witness :
    ∃ rows, rfm exNegRevenue = some rows ∧ ∀ row ∈ rows,
      1 ≤ row.r_score ∧ row.r_score ≤ 5 ∧ 1 ≤ row.f_score ∧ row.f_score ≤ 5 ∧
        1 ≤ row.m_score ∧ row.m_score ≤ 5 := by
  have hs : (rfm exNegRevenue).isSome = true := by decide
  have heq : rfm exNegRevenue = some ((rfm exNegRevenue).get hs) :=
    (Option.some_get hs).symm
  exact ⟨_, heq, claim_C6_scores_in_range heq⟩

/-- C7: both engines are order-irrelevant: a permutation of the input
records leaves the whole RFM result (scores and segments included) and
every cell of the cohort matrix (retained counts and cohort sizes)
unchanged. -/
theorem claim_C7_order_irrelevance {l l' : List PurchaseRecord}
    (h : List.Perm l l') :
    rfm l = rfm l' ∧
      (∀ c p : ℤ, cohort_retention l c p = cohort_retention l' c p) ∧
      (∀ m : ℤ, cohorts l m = cohorts l' m) :=
  ⟨rfm_eq_of_perm h, fun c p => cohort_retention_eq_of_perm h c p,
    fun m => cohorts_eq_of_perm h m⟩

/-- Witness for C7: the theorem applied to a concrete list and its
reversal. -/
theorem claim_C7_witness :
    rfm exTiedFreq = rfm exTiedFreq.reverse ∧
      cohort_retention exTiedFreq 1 1 = cohort_retention exTiedFreq.reverse 1 1 :=
  ⟨(claim_C7_order_irrelevance exTiedFreq.reverse_perm.symm).1,
   (claim_C7_order_irrelevance exTiedFreq.reverse_perm.symm).2.1 1 1⟩

/-- C8 (counterexample): an input containing a record with negative
`net_revenue` on which the RFM engine nevertheless produces a complete
result (no `InvalidInput` failure exists in the code). -/
theorem claim_C8_counterexample :
    exNegRevenue.any (fun r => decide (r.net_revenue < 0)) = true ∧
      (rfm exNegRevenue).isSome = true := by decide

/-- C8 (amended): the engine performs no input validation: the only failure
mode of the RFM block is degenerate quantile binning in one of the three
`pd.qcut` calls; field values (negative revenue or counts included) are
aggregated as-is and never rejected. -/
theorem claim_C8_no_validation (l : List PurchaseRecord) :
    rfm l = none ↔
      (qcut5 [5, 4, 3, 2, 1] ((rfm_data l).map (fun a => a.recency)) = none ∨
       qcut5 [1, 2, 3, 4, 5] (rankFirst ((rfm_data l).map (fun a => a.frequency))) = none ∨
       qcut5 [1, 2, 3, 4, 5] ((rfm_data l).map (fun a => a.monetary)) = none) :=
  rfm_none_iff l

/-! ### Helpers for the f-score tie-break claim -/

lemma rfm_data_length (l : List PurchaseRecord) :
    (rfm_data l).length = (customers l).length := by
  unfold rfm_data
  exact List.length_map _ _

lemma rfm_data_getElem_cid (l : List PurchaseRecord) {i : ℕ}
    (hi : i < (rfm_data l).length) :
    ((rfm_data l)[i]).customer_id = (customers l).getD i 0 := by
  have hi2 : i < (customers l).length := by
    rw [← rfm_data_length l]
    exact hi
  rw [List.getD_eq_getElem _ _ hi2]
  unfold rfm_data at hi ⊢
  rw [List.getElem_map]

lemma customers_getD_lt (l : List PurchaseRecord) {i j : ℕ} (hij : i < j)
    (hj : j < (customers l).length) :
    (customers l).getD i 0 < (customers l).getD j 0 := by
  rw [List.getD_eq_getElem _ _ (by omega), List.getD_eq_getElem _ _ hj]
  have hle := List.pairwise_iff_getElem.mp (customers_sorted l) i j (by omega) hj hij
  have hne := List.pairwise_iff_getElem.mp (customers_nodup l) i j (by omega) hj hij
  omega

lemma getD_map_cut (L : List ℕ) (es : List ℤ) (ws : List ℤ) {i : ℕ}
    (hi : i < ws.length) :
    (ws.map (fun v => cutLabel (5 * v) es L)).getD i 0 = cutLabel (5 * ws.getD i 0) es L := by
  rw [List.getD_eq_getElem _ _ (by rw [List.length_map]; exact hi), List.getElem_map,
    List.getD_eq_getElem _ _ hi]

lemma getD_map_freq (l : List PurchaseRecord) {i : ℕ} (hi : i < (rfm_data l).length) :
    ((rfm_data l).map (fun a => a.frequency)).getD i 0 = ((rfm_data l)[i]).frequency := by
  rw [List.getD_eq_getElem _ _ (by rw [List.length_map]; exact hi), List.getElem_map]

/-- C10: the group-by lists customers in ascending `customer_id` order,
`rank(method='first')` turns frequency ties into distinct ranks in that
order, and quintile binning with the ascending labels `[1,2,3,4,5]` is
monotone in the rank; hence of two customers with equal frequency the one
with the smaller `customer_id` never gets the larger `f_score`, and the
whole result is a function of the input multiset (permutation-invariant). -/
theorem claim_C10_fscore_tie_break {l : List PurchaseRecord} {rows : List CustomerRFM}
    (h : rfm l = some rows) :
    (∀ a ∈ rows, ∀ b ∈ rows, a.frequency = b.frequency →
      a.customer_id ≤ b.customer_id → a.f_score ≤ b.f_score) ∧
    ∀ l' : List PurchaseRecord, List.Perm l l' → rfm l' = some rows := by
  constructor
  · obtain ⟨rs, fs, ms, h1, h2, h3, hrows⟩ := rfm_eq_some h
    subst hrows
    intro a ha b hb hfreq hcid
    obtain ⟨i, hi, rfl⟩ := List.mem_map.mp ha
    obtain ⟨j, hj, rfl⟩ := List.mem_map.mp hb
    rw [List.mem_range] at hi hj
    have hfs_eq := qcut5_eq_some h2
    subst hfs_eq
    have hxlen : ((rfm_data l).map (fun a => a.frequency)).length = (rfm_data l).length :=
      List.length_map _ _
    have hrklen : (rankFirst ((rfm_data l).map (fun a => a.frequency))).length =
        (rfm_data l).length := by
      rw [rankFirst_length, hxlen]
    simp only [scoreRow] at hfreq hcid ⊢
    rw [List.getD_eq_getElem _ _ hi, List.getD_eq_getElem _ _ hj] at hfreq hcid
    rcases lt_trichotomy i j with hij | rfl | hij
    · -- the interesting case: i sits before j in the customer table
      rw [getD_map_cut _ _ _ (by omega), getD_map_cut _ _ _ (by omega)]
      have hxi : ((rfm_data l).map (fun a => a.frequency)).getD i 0
          = ((rfm_data l)[i]).frequency := getD_map_freq l hi
      have hxj : ((rfm_data l).map (fun a => a.frequency)).getD j 0
          = ((rfm_data l)[j]).frequency := getD_map_freq l hj
      have hxeq : ((rfm_data l).map (fun a => a.frequency)).getD i 0
          = ((rfm_data l).map (fun a => a.frequency)).getD j 0 := by
        rw [hxi, hxj, hfreq]
      have hrank := rankFirst_lt hij (by omega) hxeq
      have hne : rankFirst ((rfm_data l).map (fun a => a.frequency)) ≠ [] :=
        qcut5_ne_nil h2
      have hlast : (qedges (rankFirst ((rfm_data l).map (fun a => a.frequency)))).getLast?
          = some (5 * listMax (rankFirst ((rfm_data l).map (fun a => a.frequency)))) := by
        rw [qedges_getLast?, quintileEdge_last hne]
      have hwj_mem : (rankFirst ((rfm_data l).map (fun a => a.frequency))).getD j 0
          ∈ rankFirst ((rfm_data l).map (fun a => a.frequency)) := by
        rw [List.getD_eq_getElem _ _ (by omega)]
        exact List.getElem_mem _
      have hwj_le := le_listMax hwj_mem
      exact cutLabel_le [1, 2, 3, 4, 5] _ _ _
        (5 * listMax (rankFirst ((rfm_data l).map (fun a => a.frequency))))
        (by rw [qedges_length]; rfl) (by decide) (by decide) hlast (by omega) (by omega)
    · exact le_refl _
    · -- j < i contradicts `customer_id i ≤ customer_id j`
      rw [rfm_data_getElem_cid l hi, rfm_data_getElem_cid l hj] at hcid
      have := customers_getD_lt l hij (by rw [← rfm_data_length l]; exact hi)
      omega
  · intro l' hp
    rw [← rfm_eq_of_perm hp]
    exact h

/-- Witness for C10: the theorem applied to the concrete two-customer input
with tied frequencies. -/
theorem claim_C10_witness :
    ∃ rows, rfm exTiedFreq = some rows ∧
      (∀ a ∈ rows, ∀ b ∈ rows, a.frequency = b.frequency →
        a.customer_id ≤ b.customer_id → a.f_score ≤ b.f_score) ∧
      rfm exTiedFreq.reverse = some rows := by
  have hs : (rfm exTiedFreq).isSome = true := by decide
  have heq : rfm exTiedFreq = some ((rfm exTiedFreq).get hs) :=
    (Option.some_get hs).symm
  obtain ⟨hmono, hperm⟩ := claim_C10_fscore_tie_break heq
  exact ⟨_, heq, hmono, hperm _ exTiedFreq.reverse_perm.symm⟩
